import Mathlib

/-!
Verification development for the `SimpleDiff` utility (src/D.js).

The JavaScript source exposes a class `SimpleDiff` with a static method
`compareLineByLine(originalLines, modifiedLines)` implementing a greedy
line-by-line diff, and a helper `toLines(text)` splitting a text on the
newline character.  We embed both shallowly:

* lines are Lean `String`s; an indexed access `originalLines[i]` in
  JavaScript yields `undefined` out of range, which we model with
  `Option String` via `l[i]?`;
* the `while` loop of `compareLineByLine` is modelled twice, once as a
  fuel-indexed recursive function `diffLoopF` (fuel bounds the number of
  loop iterations; `A.length + B.length` iterations are proved sufficient),
  and once as an explicit state machine (`DiffState`, `step`, `runFuel`)
  mirroring the mutable locals `i`, `j`, `changes` of the source;
* `toLines` works on the character list of the text, mirroring
  JavaScript's `String.prototype.split('\n')`.
-/

/-- An entry of the edit script produced by `compareLineByLine`
(src/D.js lines 40, 50, 54, 59-60, 66, 70): the JavaScript objects
`{type, value, originalIndex, modifiedIndex}` with `type` one of
`'equal'`, `'delete'`, `'insert'`.  The `value` field holds whatever
`originalLines[i]` / `modifiedLines[j]` was, hence an `Option String`
(`none` models `undefined`). -/
inductive Change where
  | equal (originalIndex modifiedIndex : Nat) (value : Option String)
  | delete (originalIndex : Nat) (value : Option String)
  | insert (modifiedIndex : Nat) (value : Option String)
deriving DecidableEq, Repr

instance : Inhabited Change := ⟨Change.equal 0 0 none⟩

/-- The `while` guard of src/D.js line 34:
`i < originalLines.length || j < modifiedLines.length`. -/
def loopCond (A B : List String) (i j : Nat) : Prop :=
  i < A.length ∨ j < B.length

instance (A B : List String) (i j : Nat) : Decidable (loopCond A B i j) := by
  unfold loopCond; exact inferInstance

/-- The guard of src/D.js line 38:
`originalLine === modifiedLine && i < originalLines.length && j < modifiedLines.length`,
where `originalLine = originalLines[i]` and `modifiedLine = modifiedLines[j]`
(`undefined === undefined` being true is captured by equality on `Option`). -/
def eqCond (A B : List String) (i j : Nat) : Prop :=
  A[i]? = B[j]? ∧ i < A.length ∧ j < B.length

instance (A B : List String) (i j : Nat) : Decidable (eqCond A B i j) := by
  unfold eqCond; exact inferInstance

/-- src/D.js line 45:
`j < modifiedLines.length && originalLine !== undefined && modifiedLines.includes(originalLine, j)`.
`includes(x, j)` searches the elements from index `j` on; membership of
`A[i]?` in `(B.drop j).map some` is exactly that search (and is false when
`A[i]?` is `none`, matching the `!== undefined` conjunct). -/
def originalFoundInModified (A B : List String) (i j : Nat) : Prop :=
  j < B.length ∧ A[i]? ≠ none ∧ A[i]? ∈ (B.drop j).map some

instance (A B : List String) (i j : Nat) :
    Decidable (originalFoundInModified A B i j) := by
  unfold originalFoundInModified; exact inferInstance

/-- src/D.js line 46:
`i < originalLines.length && modifiedLine !== undefined && originalLines.includes(modifiedLine, i)`. -/
def modifiedFoundInOriginal (A B : List String) (i j : Nat) : Prop :=
  i < A.length ∧ B[j]? ≠ none ∧ B[j]? ∈ (A.drop i).map some

instance (A B : List String) (i j : Nat) :
    Decidable (modifiedFoundInOriginal A B i j) := by
  unfold modifiedFoundInOriginal; exact inferInstance

/-- The guard of src/D.js line 48:
`i < originalLines.length && !originalFoundInModified`. -/
def delCond (A B : List String) (i j : Nat) : Prop :=
  i < A.length ∧ ¬ originalFoundInModified A B i j

instance (A B : List String) (i j : Nat) : Decidable (delCond A B i j) := by
  unfold delCond; exact inferInstance

/-- The guard of src/D.js line 52:
`j < modifiedLines.length && !modifiedFoundInOriginal`. -/
def insCond (A B : List String) (i j : Nat) : Prop :=
  j < B.length ∧ ¬ modifiedFoundInOriginal A B i j

instance (A B : List String) (i j : Nat) : Decidable (insCond A B i j) := by
  unfold insCond; exact inferInstance

/-- The guard of src/D.js line 56:
`i < originalLines.length && j < modifiedLines.length`. -/
def bothCond (A B : List String) (i j : Nat) : Prop :=
  i < A.length ∧ j < B.length

instance (A B : List String) (i j : Nat) : Decidable (bothCond A B i j) := by
  unfold bothCond; exact inferInstance

/-- The `while` loop of `compareLineByLine` (src/D.js lines 34-75), as a
recursion on the pointers `i`, `j`; `fuel` bounds the number of loop
iterations (each structural step is one iteration of the source's loop;
the final `else` branch runs its two inner drain loops to completion
within the iteration, as in the source).  `compareLineByLine` supplies
fuel `A.length + B.length`, proved sufficient below. -/
def diffLoopF (A B : List String) : Nat → Nat → Nat → List Change
  | 0, _, _ => []
  | fuel + 1, i, j =>
    if loopCond A B i j then
      if eqCond A B i j then
        Change.equal i j A[i]? :: diffLoopF A B fuel (i + 1) (j + 1)
      else if delCond A B i j then
        Change.delete i A[i]? :: diffLoopF A B fuel (i + 1) j
      else if insCond A B i j then
        Change.insert j B[j]? :: diffLoopF A B fuel i (j + 1)
      else if bothCond A B i j then
        Change.delete i A[i]? :: Change.insert j B[j]? ::
          diffLoopF A B fuel (i + 1) (j + 1)
      else
        ((A.drop i).mapIdx fun k v => Change.delete (i + k) (some v)) ++
          ((B.drop j).mapIdx fun k v => Change.insert (j + k) (some v))
    else []

/-- Definition of `SimpleDiff.compareLineByLine` (src/D.js lines 27-77): run the loop
from `i = 0`, `j = 0` with enough fuel for every iteration. -/
def compareLineByLine (A B : List String) : List Change :=
  diffLoopF A B (A.length + B.length) 0 0

/-- The state of one invocation of `compareLineByLine`: the two (read-only)
input arrays and the mutable locals `i`, `j`, `changes` of src/D.js
lines 28-30. -/
structure DiffState where
  originalLines : List String
  modifiedLines : List String
  i : Nat
  j : Nat
  changes : List Change
deriving DecidableEq, Repr

/-- The state at function entry (src/D.js lines 28-30):
`changes = []`, `i = 0`, `j = 0`. -/
def initState (A B : List String) : DiffState :=
  ⟨A, B, 0, 0, []⟩

/-- One iteration of the `while` loop of src/D.js lines 34-75 as a state
transformer (the identity once the loop guard fails).  `push` appends to
the `changes` array as `changes.push(...)` does. -/
def step (s : DiffState) : DiffState :=
  let A := s.originalLines
  let B := s.modifiedLines
  let i := s.i
  let j := s.j
  if loopCond A B i j then
    if eqCond A B i j then
      ⟨A, B, i + 1, j + 1, s.changes ++ [Change.equal i j A[i]?]⟩
    else if delCond A B i j then
      ⟨A, B, i + 1, j, s.changes ++ [Change.delete i A[i]?]⟩
    else if insCond A B i j then
      ⟨A, B, i, j + 1, s.changes ++ [Change.insert j B[j]?]⟩
    else if bothCond A B i j then
      ⟨A, B, i + 1, j + 1,
        s.changes ++ [Change.delete i A[i]?, Change.insert j B[j]?]⟩
    else
      ⟨A, B, A.length, B.length,
        s.changes ++ ((A.drop i).mapIdx fun k v => Change.delete (i + k) (some v))
          ++ ((B.drop j).mapIdx fun k v => Change.insert (j + k) (some v))⟩
  else s

/-- Iterate `step` a given number of times. -/
def runFuel : Nat → DiffState → DiffState
  | 0, s => s
  | n + 1, s => runFuel n (step s)

/-- Entry discriminators for the three `type` tags of the script. -/
def isEqualEntry : Change → Bool
  | .equal _ _ _ => true
  | _ => false

def isDeleteEntry : Change → Bool
  | .delete _ _ => true
  | _ => false

def isInsertEntry : Change → Bool
  | .insert _ _ => true
  | _ => false

/-- The original-side values of a script: the `value` fields of its
`equal` and `delete` entries, in script order (the lines the loop
consumed from `originalLines`). -/
def originalSide : List Change → List (Option String)
  | [] => []
  | .equal _ _ v :: rest => v :: originalSide rest
  | .delete _ v :: rest => v :: originalSide rest
  | .insert _ _ :: rest => originalSide rest

/-- The modified-side values of a script: the `value` fields of its
`equal` and `insert` entries, in script order. -/
def modifiedSide : List Change → List (Option String)
  | [] => []
  | .equal _ _ v :: rest => v :: modifiedSide rest
  | .delete _ _ :: rest => modifiedSide rest
  | .insert _ v :: rest => v :: modifiedSide rest

/-- The values of the `equal` entries of a script, in script order. -/
def equalValues : List Change → List (Option String)
  | [] => []
  | .equal _ _ v :: rest => v :: equalValues rest
  | .delete _ _ :: rest => equalValues rest
  | .insert _ _ :: rest => equalValues rest

/-- Number of `equal` entries of a script. -/
def equalCount (s : List Change) : Nat := s.countP isEqualEntry

/-- Number of non-`equal` (`delete` or `insert`) entries of a script. -/
def nonEqualCount (s : List Change) : Nat := s.countP fun c => !isEqualEntry c

/-- Length of a longest common subsequence, by the textbook recursion;
`fuel` bounds the recursion depth (`X.length + Y.length` suffices and is
supplied by `lcsLength`). -/
def lcsLengthF {α : Type _} [DecidableEq α] : Nat → List α → List α → Nat
  | 0, _, _ => 0
  | _ + 1, [], _ => 0
  | _ + 1, _, [] => 0
  | fuel + 1, a :: as, b :: bs =>
    if a = b then lcsLengthF fuel as bs + 1
    else max (lcsLengthF fuel (a :: as) bs) (lcsLengthF fuel as (b :: bs))
  termination_by structural fuel _ _ => fuel

/-- Length of a longest common subsequence of two lists. -/
def lcsLength {α : Type _} [DecidableEq α] (X Y : List α) : Nat :=
  lcsLengthF (X.length + Y.length) X Y

/-- A script respects the delete-before-insert presentation order when
between any `insert` entry and any later `delete` entry some `equal`
entry intervenes (two non-`equal` entries separated by no `equal` entry
sit at the same alignment point of the two sequences). -/
def deleteBeforeInsertAtPoint (s : List Change) : Prop :=
  ∀ l ∈ List.range s.length, ∀ k ∈ List.range l,
    isInsertEntry (s.getD k default) = true →
    isDeleteEntry (s.getD l default) = true →
    ∃ m ∈ List.range l, k < m ∧ isEqualEntry (s.getD m default) = true

instance (s : List Change) : Decidable (deleteBeforeInsertAtPoint s) := by
  unfold deleteBeforeInsertAtPoint; exact inferInstance

/-- Definition of `SimpleDiff.toLines` (src/D.js lines 84-86): `text.split('\n')`,
with the text modelled as its list of characters.  Mirrors JavaScript
`String.prototype.split` with the one-character separator `'\n'`:
`''.split('\n')` is `['']`, a trailing separator yields a trailing
empty line, and no other character (in particular `'\r'`) is treated
specially. -/
def toLines : List Char → List (List Char)
  | [] => [[]]
  | c :: rest =>
    if c = '\n' then [] :: toLines rest
    else
      match toLines rest with
      | [] => [[c]]
      | line :: lines => (c :: line) :: lines

/-! ## Helper lemmas -/

/-- Whenever the loop guard holds and none of the first three branch guards
fires, the fourth guard (`i < A.length && j < B.length`) holds, so the final
`else` of src/D.js lines 63-73 never executes. -/
theorem no_fallback (A B : List String) (i j : Nat) (hl : loopCond A B i j)
    (hd : ¬ delCond A B i j) (hi : ¬ insCond A B i j) :
    bothCond A B i j := by
  unfold loopCond at hl
  unfold delCond at hd
  unfold insCond at hi
  unfold bothCond
  by_cases hA : i < A.length
  · refine ⟨hA, ?_⟩
    by_cases hB : j < B.length
    · exact hB
    · exact absurd ⟨hA, fun hf => hB hf.1⟩ hd
  · have hB : j < B.length := hl.resolve_left hA
    have : ¬ modifiedFoundInOriginal A B i j := fun hf => hA hf.1
    exact absurd ⟨hB, this⟩ hi

/-- Once the loop guard fails the loop body never runs, whatever the fuel. -/
theorem diffLoopF_done (A B : List String) (fuel i j : Nat)
    (h : ¬ loopCond A B i j) : diffLoopF A B fuel i j = [] := by
  cases fuel with
  | zero => rfl
  | succ f => simp [diffLoopF, if_neg h]

/-- Loop invariant of src/D.js lines 34-75: whatever the entry point
`(i, j)`, the original-side values of the emitted script are exactly the
remaining original lines and the modified-side values exactly the
remaining modified lines. -/
theorem diffLoopF_sides (A B : List String) :
    ∀ fuel i j, A.length - i + (B.length - j) ≤ fuel →
      originalSide (diffLoopF A B fuel i j) = (A.drop i).map some ∧
      modifiedSide (diffLoopF A B fuel i j) = (B.drop j).map some := by
  intro fuel
  induction fuel with
  | zero =>
    intro i j h
    have hA : A.length ≤ i := by omega
    have hB : B.length ≤ j := by omega
    simp [diffLoopF, List.drop_eq_nil_of_le hA, List.drop_eq_nil_of_le hB,
      originalSide, modifiedSide]
  | succ fuel ih =>
    intro i j h
    by_cases hl : loopCond A B i j
    · simp only [diffLoopF]
      rw [if_pos hl]
      by_cases he : eqCond A B i j
      · rw [if_pos he]
        obtain ⟨hv, hia, hjb⟩ := he
        have hrec := ih (i + 1) (j + 1) (by omega)
        simp only [originalSide, modifiedSide]
        constructor
        · rw [hrec.1, List.getElem?_eq_getElem hia,
            List.drop_eq_getElem_cons hia, List.map_cons]
        · rw [hrec.2, hv, List.getElem?_eq_getElem hjb,
            List.drop_eq_getElem_cons hjb, List.map_cons]
      · rw [if_neg he]
        by_cases hd : delCond A B i j
        · rw [if_pos hd]
          obtain ⟨hia, -⟩ := hd
          have hrec := ih (i + 1) j (by omega)
          simp only [originalSide, modifiedSide]
          refine ⟨?_, hrec.2⟩
          rw [hrec.1, List.getElem?_eq_getElem hia,
            List.drop_eq_getElem_cons hia, List.map_cons]
        · rw [if_neg hd]
          by_cases hins : insCond A B i j
          · rw [if_pos hins]
            obtain ⟨hjb, -⟩ := hins
            have hrec := ih i (j + 1) (by omega)
            simp only [originalSide, modifiedSide]
            refine ⟨hrec.1, ?_⟩
            rw [hrec.2, List.getElem?_eq_getElem hjb,
              List.drop_eq_getElem_cons hjb, List.map_cons]
          · rw [if_neg hins]
            have hb := no_fallback A B i j hl hd hins
            rw [if_pos hb]
            obtain ⟨hia, hjb⟩ := hb
            have hrec := ih (i + 1) (j + 1) (by omega)
            simp only [originalSide, modifiedSide]
            constructor
            · rw [hrec.1, List.getElem?_eq_getElem hia,
                List.drop_eq_getElem_cons hia, List.map_cons]
            · rw [hrec.2, List.getElem?_eq_getElem hjb,
                List.drop_eq_getElem_cons hjb, List.map_cons]
    · rw [diffLoopF_done A B _ i j hl]
      unfold loopCond at hl
      push_neg at hl
      simp [List.drop_eq_nil_of_le hl.1, List.drop_eq_nil_of_le hl.2,
        originalSide, modifiedSide]

theorem diffLoopF_nil_modified (A : List String) :
    ∀ fuel i j, A.length - i ≤ fuel →
      diffLoopF A [] fuel i j =
        (A.drop i).mapIdx fun k v => Change.delete (i + k) (some v) := by
  intro fuel
  induction fuel with
  | zero =>
    intro i j h
    rw [List.drop_eq_nil_of_le (by omega)]
    simp [diffLoopF]
  | succ fuel ih =>
    intro i j h
    by_cases hia : i < A.length
    · have hl : loopCond A [] i j := Or.inl hia
      have he : ¬ eqCond A [] i j := by simp [eqCond]
      have hd : delCond A [] i j := by
        refine ⟨hia, ?_⟩
        simp [originalFoundInModified]
      simp only [diffLoopF]
      rw [if_pos hl, if_neg he, if_pos hd, ih (i + 1) j (by omega),
        List.drop_eq_getElem_cons hia, List.mapIdx_cons,
        List.getElem?_eq_getElem hia]
      congr 1
      · congr 1
        funext k v
        congr 1
        omega
    · have hl : ¬ loopCond A [] i j := by
        unfold loopCond
        simp only [List.length_nil]
        omega
      rw [diffLoopF_done A [] _ i j hl, List.drop_eq_nil_of_le (by omega)]
      simp

/-- When the original array is empty every iteration takes the insert
branch: the loop emits exactly the remaining modified lines as inserts. -/
theorem diffLoopF_nil_original (B : List String) :
    ∀ fuel i j, B.length - j ≤ fuel →
      diffLoopF [] B fuel i j =
        (B.drop j).mapIdx fun k v => Change.insert (j + k) (some v) := by
  intro fuel
  induction fuel with
  | zero =>
    intro i j h
    rw [List.drop_eq_nil_of_le (by omega)]
    simp [diffLoopF]
  | succ fuel ih =>
    intro i j h
    by_cases hjb : j < B.length
    · have hl : loopCond [] B i j := Or.inr hjb
      have he : ¬ eqCond [] B i j := by simp [eqCond]
      have hd : ¬ delCond [] B i j := by simp [delCond]
      have hins : insCond [] B i j := by
        refine ⟨hjb, ?_⟩
        simp [modifiedFoundInOriginal]
      simp only [diffLoopF]
      rw [if_pos hl, if_neg he, if_neg hd, if_pos hins, ih i (j + 1) (by omega),
        List.drop_eq_getElem_cons hjb, List.mapIdx_cons,
        List.getElem?_eq_getElem hjb]
      congr 1
      · congr 1
        funext k v
        congr 1
        omega
    · have hl : ¬ loopCond [] B i j := by
        unfold loopCond
        simp only [List.length_nil]
        omega
      rw [diffLoopF_done [] B _ i j hl, List.drop_eq_nil_of_le (by omega)]
      simp

/-- On identical inputs every iteration takes the equal branch. -/
theorem diffLoopF_same (A : List String) :
    ∀ fuel i, A.length - i ≤ fuel →
      diffLoopF A A fuel i i =
        (A.drop i).mapIdx fun k v => Change.equal (i + k) (i + k) (some v) := by
  intro fuel
  induction fuel with
  | zero =>
    intro i h
    rw [List.drop_eq_nil_of_le (by omega)]
    simp [diffLoopF]
  | succ fuel ih =>
    intro i h
    by_cases hia : i < A.length
    · have hl : loopCond A A i i := Or.inl hia
      have he : eqCond A A i i := ⟨rfl, hia, hia⟩
      simp only [diffLoopF]
      rw [if_pos hl, if_pos he, ih (i + 1) (by omega),
        List.drop_eq_getElem_cons hia, List.mapIdx_cons,
        List.getElem?_eq_getElem hia]
      congr 1
      · congr 1
        funext k v
        congr 1
        · omega
        · omega
    · have hl : ¬ loopCond A A i i := by
        unfold loopCond
        omega
      rw [diffLoopF_done A A _ i i hl, List.drop_eq_nil_of_le (by omega)]
      simp
/-- The `equal` values of a script are a subsequence of its original-side
values. -/
theorem equalValues_sublist_originalSide (s : List Change) :
    List.Sublist (equalValues s) (originalSide s) := by
  induction s with
  | nil => simp [equalValues, originalSide]
  | cons c rest ih =>
    cases c with
    | equal o m v =>
      simp only [equalValues, originalSide]
      exact ih.cons₂ v
    | delete o v =>
      simp only [equalValues, originalSide]
      exact ih.cons v
    | insert m v =>
      simp only [equalValues, originalSide]
      exact ih

/-- The `equal` values of a script are a subsequence of its modified-side
values. -/
theorem equalValues_sublist_modifiedSide (s : List Change) :
    List.Sublist (equalValues s) (modifiedSide s) := by
  induction s with
  | nil => simp [equalValues, modifiedSide]
  | cons c rest ih =>
    cases c with
    | equal o m v =>
      simp only [equalValues, modifiedSide]
      exact ih.cons₂ v
    | delete o v =>
      simp only [equalValues, modifiedSide]
      exact ih
    | insert m v =>
      simp only [equalValues, modifiedSide]
      exact ih.cons v

/-- The original side has one value per `equal` or `delete` entry. -/
theorem length_originalSide (s : List Change) :
    (originalSide s).length = equalCount s + s.countP isDeleteEntry := by
  unfold equalCount
  induction s with
  | nil => simp [originalSide]
  | cons c rest ih =>
    cases c <;>
      simp [originalSide, List.countP_cons, isEqualEntry, isDeleteEntry, ih] <;>
      omega

/-- The modified side has one value per `equal` or `insert` entry. -/
theorem length_modifiedSide (s : List Change) :
    (modifiedSide s).length = equalCount s + s.countP isInsertEntry := by
  unfold equalCount
  induction s with
  | nil => simp [modifiedSide]
  | cons c rest ih =>
    cases c <;>
      simp [modifiedSide, List.countP_cons, isEqualEntry, isInsertEntry, ih] <;>
      omega

/-- There is one `equal` value per `equal` entry. -/
theorem length_equalValues (s : List Change) :
    (equalValues s).length = equalCount s := by
  unfold equalCount
  induction s with
  | nil => simp [equalValues]
  | cons c rest ih =>
    cases c <;>
      simp [equalValues, List.countP_cons, isEqualEntry, ih]

/-- Every non-`equal` entry is a `delete` or an `insert`. -/
theorem nonEqualCount_eq (s : List Change) :
    nonEqualCount s = s.countP isDeleteEntry + s.countP isInsertEntry := by
  unfold nonEqualCount
  induction s with
  | nil => simp
  | cons c rest ih =>
    rw [List.countP_cons, List.countP_cons, List.countP_cons, ih]
    cases c <;> simp [isEqualEntry, isDeleteEntry, isInsertEntry] <;> omega

/-- Tail of a sublist of a cons list is a sublist of the tail. -/
theorem sublist_tail_of_cons_cons {α : Type _} {c a : α} {cs as : List α}
    (h : List.Sublist (c :: cs) (a :: as)) : List.Sublist cs as := by
  cases h with
  | cons _ h' => exact (List.sublist_cons_self c cs).trans h'
  | cons₂ _ h' => exact h'

/-- A sublist of a cons list with a different head skips that head. -/
theorem sublist_of_cons_cons_ne {α : Type _} {c a : α} {cs as : List α}
    (h : List.Sublist (c :: cs) (a :: as)) (hne : c ≠ a) :
    List.Sublist (c :: cs) as := by
  cases h with
  | cons _ h' => exact h'
  | cons₂ _ h' => exact absurd rfl hne

/-- Any common subsequence is at most as long as the LCS recursion's
value, provided enough fuel. -/
theorem lcsLengthF_le_of_sublists {α : Type _} [DecidableEq α] :
    ∀ fuel (X Y C : List α), X.length + Y.length ≤ fuel →
      List.Sublist C X → List.Sublist C Y → C.length ≤ lcsLengthF fuel X Y := by
  intro fuel
  induction fuel with
  | zero =>
    intro X Y C h hX hY
    obtain rfl : X = [] := List.length_eq_zero.mp (by omega)
    obtain rfl := List.sublist_nil.mp hX
    simp
  | succ fuel ih =>
    intro X Y C h hX hY
    cases X with
    | nil =>
      obtain rfl := List.sublist_nil.mp hX
      simp
    | cons a as =>
      cases Y with
      | nil =>
        obtain rfl := List.sublist_nil.mp hY
        simp
      | cons b bs =>
        cases C with
        | nil => simp
        | cons c cs =>
          simp only [List.length_cons] at h ⊢
          by_cases hab : a = b
          · subst hab
            simp only [lcsLengthF, eq_self_iff_true, if_true]
            have hcs₁ : List.Sublist cs as := sublist_tail_of_cons_cons hX
            have hcs₂ : List.Sublist cs bs := sublist_tail_of_cons_cons hY
            have := ih as bs cs (by omega) hcs₁ hcs₂
            omega
          · simp only [lcsLengthF, if_neg hab]
            by_cases hca : c = a
            · have hcb : c ≠ b := by rw [hca]; exact hab
              have hCbs : List.Sublist (c :: cs) bs :=
                sublist_of_cons_cons_ne hY hcb
              have := ih (a :: as) bs (c :: cs) (by simp; omega) hX hCbs
              simp only [List.length_cons] at this
              exact le_trans (by omega) (Nat.le_max_left _ _)
            · have hCas : List.Sublist (c :: cs) as :=
                sublist_of_cons_cons_ne hX hca
              have := ih as (b :: bs) (c :: cs) (by simp; omega) hCas hY
              simp only [List.length_cons] at this
              exact le_trans (by omega) (Nat.le_max_right _ _)

/-- Wrapping every element in `some` changes no comparisons, hence no LCS
value. -/
theorem lcsLengthF_map_some :
    ∀ fuel (X Y : List String),
      lcsLengthF fuel (X.map some) (Y.map some) = lcsLengthF fuel X Y := by
  intro fuel
  induction fuel with
  | zero => intro X Y; rfl
  | succ fuel ih =>
    intro X Y
    cases X with
    | nil => simp [lcsLengthF]
    | cons a as =>
      cases Y with
      | nil => simp [lcsLengthF]
      | cons b bs =>
        simp only [List.map_cons, lcsLengthF]
        by_cases hab : a = b
        · rw [if_pos (by rw [hab]), if_pos hab, ih]
        · rw [if_neg (by simpa using hab), if_neg hab,
            ← List.map_cons some a as, ← List.map_cons some b bs, ih, ih]

/-- Any common subsequence of `X` and `Y` is at most `lcsLength X Y` long. -/
theorem le_lcsLength_of_sublists {α : Type _} [DecidableEq α] (X Y C : List α)
    (hX : List.Sublist C X) (hY : List.Sublist C Y) :
    C.length ≤ lcsLength X Y :=
  lcsLengthF_le_of_sublists (X.length + Y.length) X Y C le_rfl hX hY

theorem lcsLength_map_some (X Y : List String) :
    lcsLength (X.map some) (Y.map some) = lcsLength X Y := by
  unfold lcsLength
  rw [List.length_map, List.length_map, lcsLengthF_map_some]

/-- One loop iteration never touches the two input arrays. -/
theorem step_frame (s : DiffState) :
    (step s).originalLines = s.originalLines ∧
    (step s).modifiedLines = s.modifiedLines := by
  obtain ⟨A, B, i, j, acc⟩ := s
  unfold step
  dsimp only
  repeat' split
  all_goals exact ⟨rfl, rfl⟩

/-- Any number of loop iterations never touches the two input arrays. -/
theorem runFuel_frame : ∀ (n : Nat) (s : DiffState),
    (runFuel n s).originalLines = s.originalLines ∧
    (runFuel n s).modifiedLines = s.modifiedLines := by
  intro n
  induction n with
  | zero => intro s; exact ⟨rfl, rfl⟩
  | succ n ih =>
    intro s
    have h1 := step_frame s
    have h2 := ih (step s)
    simp only [runFuel]
    exact ⟨h2.1.trans h1.1, h2.2.trans h1.2⟩

/-- The state machine and the recursive formulation agree: from any state,
`(A.length - i) + (B.length - j)` iterations drive both pointers past the
ends and accumulate exactly the script of `diffLoopF`. -/
theorem runFuel_correspond (A B : List String) : ∀ n fuel i j acc,
    A.length - i + (B.length - j) ≤ n →
    A.length - i + (B.length - j) ≤ fuel →
    runFuel n ⟨A, B, i, j, acc⟩ =
      ⟨A, B, max i A.length, max j B.length, acc ++ diffLoopF A B fuel i j⟩ := by
  intro n
  induction n with
  | zero =>
    intro fuel i j acc hn hf
    have hA : A.length ≤ i := by omega
    have hB : B.length ≤ j := by omega
    have hl : ¬ loopCond A B i j := by unfold loopCond; omega
    simp [runFuel, diffLoopF_done A B fuel i j hl, Nat.max_eq_left hA,
      Nat.max_eq_left hB]
  | succ n ih =>
    intro fuel i j acc hn hf
    by_cases hl : loopCond A B i j
    · have hm : 1 ≤ A.length - i + (B.length - j) := by
        unfold loopCond at hl; omega
      obtain ⟨f, rfl⟩ : ∃ f, fuel = f + 1 := ⟨fuel - 1, by omega⟩
      simp only [runFuel]
      by_cases he : eqCond A B i j
      · obtain ⟨-, hia, hjb⟩ := id he
        have hstep : step ⟨A, B, i, j, acc⟩ =
            ⟨A, B, i + 1, j + 1, acc ++ [Change.equal i j A[i]?]⟩ := by
          simp only [step]
          rw [if_pos hl, if_pos he]
        rw [hstep,
          ih f (i + 1) (j + 1) (acc ++ [Change.equal i j A[i]?]) (by omega)
            (by omega)]
        simp only [diffLoopF]
        rw [if_pos hl, if_pos he]
        congr 1
        · omega
        · omega
        · simp
      · by_cases hd : delCond A B i j
        · obtain ⟨hia, -⟩ := id hd
          have hstep : step ⟨A, B, i, j, acc⟩ =
              ⟨A, B, i + 1, j, acc ++ [Change.delete i A[i]?]⟩ := by
            simp only [step]
            rw [if_pos hl, if_neg he, if_pos hd]
          rw [hstep,
            ih f (i + 1) j (acc ++ [Change.delete i A[i]?]) (by omega) (by omega)]
          simp only [diffLoopF]
          rw [if_pos hl, if_neg he, if_pos hd]
          congr 1
          · omega
          · simp
        · by_cases hins : insCond A B i j
          · obtain ⟨hjb, -⟩ := id hins
            have hstep : step ⟨A, B, i, j, acc⟩ =
                ⟨A, B, i, j + 1, acc ++ [Change.insert j B[j]?]⟩ := by
              simp only [step]
              rw [if_pos hl, if_neg he, if_neg hd, if_pos hins]
            rw [hstep,
              ih f i (j + 1) (acc ++ [Change.insert j B[j]?]) (by omega)
                (by omega)]
            simp only [diffLoopF]
            rw [if_pos hl, if_neg he, if_neg hd, if_pos hins]
            congr 1
            · omega
            · simp
          · have hb := no_fallback A B i j hl hd hins
            obtain ⟨hia, hjb⟩ := id hb
            have hstep : step ⟨A, B, i, j, acc⟩ =
                ⟨A, B, i + 1, j + 1,
                  acc ++ [Change.delete i A[i]?, Change.insert j B[j]?]⟩ := by
              simp only [step]
              rw [if_pos hl, if_neg he, if_neg hd, if_neg hins, if_pos hb]
            rw [hstep,
              ih f (i + 1) (j + 1)
                (acc ++ [Change.delete i A[i]?, Change.insert j B[j]?])
                (by omega) (by omega)]
            simp only [diffLoopF]
            rw [if_pos hl, if_neg he, if_neg hd, if_neg hins, if_pos hb]
            congr 1
            · omega
            · omega
            · simp
    · have hstep : step ⟨A, B, i, j, acc⟩ = ⟨A, B, i, j, acc⟩ := by
        simp only [step]
        rw [if_neg hl]
      have hm : A.length - i + (B.length - j) = 0 := by
        unfold loopCond at hl; omega
      simp only [runFuel]
      rw [hstep]
      exact ih fuel i j acc (by omega) (by omega)
/-- Unfolding lemma: a leading separator yields a leading empty line. -/
theorem toLines_cons_newline (t : List Char) :
    toLines ('\n' :: t) = [] :: toLines t := by
  simp [toLines]

/-- Unfolding lemma: any other character is prepended to the first line. -/
theorem toLines_cons_other (c : Char) (t : List Char) (hc : c ≠ '\n')
    (line : List Char) (lines : List (List Char))
    (h : toLines t = line :: lines) :
    toLines (c :: t) = (c :: line) :: lines := by
  simp only [toLines, if_neg hc, h]

/-- The function `toLines` never returns the empty list of lines. -/
theorem toLines_ne_nil (t : List Char) : toLines t ≠ [] := by
  induction t with
  | nil => simp [toLines]
  | cons c rest ih =>
    by_cases hc : c = '\n'
    · simp [toLines, hc]
    · simp only [toLines, if_neg hc]
      split <;> simp

/-- The function `toLines` always returns a cons. -/
theorem toLines_exists_cons (t : List Char) :
    ∃ line lines, toLines t = line :: lines := by
  cases h : toLines t with
  | nil => exact absurd h (toLines_ne_nil t)
  | cons l ls => exact ⟨l, ls, rfl⟩

/-- Unfolding `List.intercalate` over a cons with a nonempty tail. -/
theorem intercalate_cons_of_ne_nil {α : Type _} (sep l : List α)
    (ls : List (List α)) (h : ls ≠ []) :
    List.intercalate sep (l :: ls) = l ++ sep ++ List.intercalate sep ls := by
  cases ls with
  | nil => exact absurd rfl h
  | cons l' ls' =>
    unfold List.intercalate
    rw [List.intersperse_cons_cons, List.flatten_cons, List.flatten_cons,
      List.append_assoc]

/-- The join `List.intercalate` keeps the head element of the head list in front. -/
theorem intercalate_cons_head {α : Type _} (sep : List α) (c : α)
    (l : List α) (ls : List (List α)) :
    List.intercalate sep ((c :: l) :: ls) =
      c :: List.intercalate sep (l :: ls) := by
  cases ls with
  | nil => rfl
  | cons l' ls' =>
    rw [intercalate_cons_of_ne_nil sep (c :: l) (l' :: ls') (by simp),
      intercalate_cons_of_ne_nil sep l (l' :: ls') (by simp)]
    simp

/-- Joining the lines back with the separator recovers the text. -/
theorem toLines_intercalate (t : List Char) :
    List.intercalate ['\n'] (toLines t) = t := by
  induction t with
  | nil => rfl
  | cons c rest ih =>
    by_cases hc : c = '\n'
    · subst hc
      rw [toLines_cons_newline,
        intercalate_cons_of_ne_nil _ _ _ (toLines_ne_nil rest), ih]
      rfl
    · obtain ⟨line, lines, hl⟩ := toLines_exists_cons rest
      rw [toLines_cons_other c rest hc line lines hl, intercalate_cons_head,
        ← hl, ih]

/-- No produced line contains the separator. -/
theorem toLines_no_newline (t : List Char) :
    ∀ l ∈ toLines t, '\n' ∉ l := by
  induction t with
  | nil =>
    intro l hl
    simp only [toLines, List.mem_singleton] at hl
    subst hl
    simp
  | cons c rest ih =>
    intro l hl
    by_cases hc : c = '\n'
    · subst hc
      rw [toLines_cons_newline, List.mem_cons] at hl
      rcases hl with rfl | hl
      · simp
      · exact ih l hl
    · obtain ⟨line, lines, hlr⟩ := toLines_exists_cons rest
      rw [toLines_cons_other c rest hc line lines hlr, List.mem_cons] at hl
      rcases hl with rfl | hl
      · have h1 : '\n' ∉ line :=
          ih line (by rw [hlr]; exact List.mem_cons_self _ _)
        intro hmem
        rcases List.mem_cons.mp hmem with h | h
        · exact hc h.symm
        · exact h1 h
      · exact ih l (by rw [hlr]; exact List.mem_cons_of_mem _ hl)

/-- A trailing separator produces one trailing empty line. -/
theorem toLines_append_newline (t : List Char) :
    toLines (t ++ ['\n']) = toLines t ++ [[]] := by
  induction t with
  | nil => rfl
  | cons c rest ih =>
    by_cases hc : c = '\n'
    · subst hc
      rw [List.cons_append, toLines_cons_newline, toLines_cons_newline, ih,
        List.cons_append]
    · obtain ⟨line, lines, hl⟩ := toLines_exists_cons rest
      rw [List.cons_append,
        toLines_cons_other c (rest ++ ['\n']) hc line (lines ++ [[]])
          (by rw [ih, hl, List.cons_append]),
        toLines_cons_other c rest hc line lines hl, List.cons_append]

/-! ## Claim theorems -/

/-- Claim C1, counterexample: on `A = ["a","a","b"]`, `B = ["a","b","a"]`
the script of `compareLineByLine` has 4 non-`equal` entries, while
`|A| + |B| - 2 * lcsLength A B = 2`, so the claimed equality (and the
claimed minimal 2-edit script on exactly this input) fails. -/
theorem compare_minimality_cex :
    nonEqualCount (compareLineByLine ["a", "a", "b"] ["a", "b", "a"]) = 4 ∧
    (["a", "a", "b"] : List String).length +
        (["a", "b", "a"] : List String).length -
        2 * lcsLength ["a", "a", "b"] ["a", "b", "a"] = 2 ∧
    ¬ (nonEqualCount (compareLineByLine ["a", "a", "b"] ["a", "b", "a"]) =
        (["a", "a", "b"] : List String).length +
          (["a", "b", "a"] : List String).length -
          2 * lcsLength ["a", "a", "b"] ["a", "b", "a"]) := by
  decide

/-- Claim C1 (amended): the number of non-`equal` entries of
`compareLineByLine A B` equals `|A| + |B|` minus twice the number of
`equal` entries, and is therefore at least `|A| + |B| - 2 * lcsLength A B`;
the greedy algorithm attains this lower bound on some inputs but not on
all (see the counterexample). -/
theorem compare_nonEqual_lower_bound (A B : List String) :
    nonEqualCount (compareLineByLine A B) =
      A.length + B.length - 2 * equalCount (compareLineByLine A B) ∧
    A.length + B.length - 2 * lcsLength A B ≤
      nonEqualCount (compareLineByLine A B) := by
  have hO : originalSide (compareLineByLine A B) = A.map some := by
    unfold compareLineByLine
    simpa using (diffLoopF_sides A B (A.length + B.length) 0 0 (by omega)).1
  have hM : modifiedSide (compareLineByLine A B) = B.map some := by
    unfold compareLineByLine
    simpa using (diffLoopF_sides A B (A.length + B.length) 0 0 (by omega)).2
  have hlen1 : equalCount (compareLineByLine A B) +
      (compareLineByLine A B).countP isDeleteEntry = A.length := by
    rw [← length_originalSide, hO, List.length_map]
  have hlen2 : equalCount (compareLineByLine A B) +
      (compareLineByLine A B).countP isInsertEntry = B.length := by
    rw [← length_modifiedSide, hM, List.length_map]
  have hne := nonEqualCount_eq (compareLineByLine A B)
  have hcs : equalCount (compareLineByLine A B) ≤ lcsLength A B := by
    have h1 := equalValues_sublist_originalSide (compareLineByLine A B)
    have h2 := equalValues_sublist_modifiedSide (compareLineByLine A B)
    rw [hO] at h1
    rw [hM] at h2
    have h3 := le_lcsLength_of_sublists (A.map some) (B.map some)
      (equalValues (compareLineByLine A B)) h1 h2
    rw [lcsLength_map_some, length_equalValues] at h3
    exact h3
  exact ⟨by omega, by omega⟩

/-- Claim C2: replaying the script of `compareLineByLine A B` in order
reconstructs both inputs: the values of the `equal` and `delete` entries
are exactly the lines of `A` in order, and the values of the `equal` and
`insert` entries are exactly the lines of `B` in order. -/
theorem compare_reconstruction (A B : List String) :
    originalSide (compareLineByLine A B) = A.map some ∧
    modifiedSide (compareLineByLine A B) = B.map some := by
  unfold compareLineByLine
  simpa using diffLoopF_sides A B (A.length + B.length) 0 0 (by omega)

/-- Claim C3: the loop of `compareLineByLine` terminates on every pair of
finite inputs: after at most `A.length + B.length` iterations of `step`
both pointers have passed the ends of their arrays (so the `while` guard
fails) and the accumulated script is exactly `compareLineByLine A B`. -/
theorem compare_terminates (A B : List String) :
    A.length ≤ (runFuel (A.length + B.length) (initState A B)).i ∧
    B.length ≤ (runFuel (A.length + B.length) (initState A B)).j ∧
    (runFuel (A.length + B.length) (initState A B)).changes =
      compareLineByLine A B := by
  have h := runFuel_correspond A B (A.length + B.length) (A.length + B.length)
    0 0 [] (by omega) (by omega)
  unfold initState
  rw [h]
  refine ⟨by simp, by simp, by simp [compareLineByLine]⟩

/-- Claim C4, counterexample: for `A = ["a","b"]`, `B = ["b","a"]` the
script is `[delete 0 "a", insert 0 "b", delete 1 "b", insert 1 "a"]`: the
`insert` at position 1 precedes the `delete` at position 2 with no `equal`
entry between them, so a Delete does not always come before an Insert at
the same alignment point. -/
theorem compare_order_cex :
    ¬ deleteBeforeInsertAtPoint (compareLineByLine ["a", "b"] ["b", "a"]) := by
  decide

/-- Claim C4 (amended): `compareLineByLine ["a","b","c"] ["a","x","c"]`
returns exactly `[Equal(0,0,"a"), Delete(1,"b"), Insert(1,"x"),
Equal(2,2,"c")]`, and in this script every Delete precedes every Insert at
the same alignment point; the delete-before-insert ordering does not hold
for every script (see the counterexample). -/
theorem compare_scenario_script :
    compareLineByLine ["a", "b", "c"] ["a", "x", "c"] =
      [Change.equal 0 0 (some "a"), Change.delete 1 (some "b"),
        Change.insert 1 (some "x"), Change.equal 2 2 (some "c")] ∧
    deleteBeforeInsertAtPoint (compareLineByLine ["a", "b", "c"] ["a", "x", "c"]) := by
  decide

/-- Claim C5: with an empty modified array the script is one `delete` per
original line in index order; with an empty original array it is one
`insert` per modified line in index order; two empty arrays give the empty
script. -/
theorem compare_empty_cases (A : List String) :
    compareLineByLine A [] = (A.mapIdx fun k v => Change.delete k (some v)) ∧
    compareLineByLine [] A = (A.mapIdx fun k v => Change.insert k (some v)) ∧
    compareLineByLine ([] : List String) [] = [] := by
  refine ⟨?_, ?_, rfl⟩
  · have h := diffLoopF_nil_modified A A.length 0 0 (by omega)
    simp only [compareLineByLine, List.length_nil, Nat.add_zero,
      List.drop_zero, Nat.zero_add] at h ⊢
    exact h
  · have h := diffLoopF_nil_original A A.length 0 0 (by omega)
    simp only [compareLineByLine, List.length_nil, Nat.zero_add,
      List.drop_zero] at h ⊢
    exact h

/-- Claim C6: on identical inputs the script consists solely of `equal`
entries, the `k`-th pairing original index `k` with modified index `k`
and carrying the `k`-th line. -/
theorem compare_identity (A : List String) :
    compareLineByLine A A = A.mapIdx fun k v => Change.equal k k (some v) := by
  have h := diffLoopF_same A (A.length + A.length) 0 (by omega)
  simp only [List.drop_zero, Nat.zero_add] at h
  exact h

/-- Claim C7: `compareLineByLine` is deterministic: two results computed
from the same pair of inputs are equal. -/
theorem compare_deterministic (A B : List String) (s₁ s₂ : List Change)
    (h₁ : compareLineByLine A B = s₁) (h₂ : compareLineByLine A B = s₂) :
    s₁ = s₂ := by
  rw [← h₁, ← h₂]

/-- Witness for the determinism claim at a concrete input. -/
theorem compare_deterministic_witness :
    ([Change.equal 0 0 (some "a")] : List Change) =
      [Change.equal 0 0 (some "a")] :=
  compare_deterministic ["a"] ["a"] [Change.equal 0 0 (some "a")]
    [Change.equal 0 0 (some "a")] (by decide) (by decide)

/-- Claim C8: `compareLineByLine` mutates nothing it does not own: a loop
iteration (and hence any number of iterations) leaves the two input arrays
untouched, and every invocation starts from a fresh state whose `changes`
array is empty. -/
theorem compare_no_side_effects (s : DiffState) (n : Nat) (A B : List String) :
    (step s).originalLines = s.originalLines ∧
    (step s).modifiedLines = s.modifiedLines ∧
    (runFuel n s).originalLines = s.originalLines ∧
    (runFuel n s).modifiedLines = s.modifiedLines ∧
    (initState A B).changes = [] :=
  ⟨(step_frame s).1, (step_frame s).2, (runFuel_frame n s).1,
    (runFuel_frame n s).2, rfl⟩

/-- Claim C9: the final fallback branch of src/D.js lines 63-73 is dead
code: whenever the loop guard holds and the equal, delete and insert
branches all decline, the delete-then-insert guard
`i < originalLines.length && j < modifiedLines.length` holds, so the
trailing `else` never executes. -/
theorem fallback_branch_unreachable (A B : List String) (i j : Nat)
    (hl : loopCond A B i j) (_he : ¬ eqCond A B i j) (hd : ¬ delCond A B i j)
    (hins : ¬ insCond A B i j) : bothCond A B i j :=
  no_fallback A B i j hl hd hins

/-- Witness for the dead-fallback claim at a concrete state. -/
theorem fallback_branch_unreachable_witness : bothCond ["a", "b"] ["b", "a"] 0 0 :=
  fallback_branch_unreachable ["a", "b"] ["b", "a"] 0 0 (by decide) (by decide)
    (by decide) (by decide)

/-- Claim C10: `toLines` splits on the single character `'\n'`: joining
its lines with `'\n'` recovers the text and no line contains `'\n'` (so
`'\r'` characters are preserved inside lines); the result is never empty;
the empty text gives one empty line; a trailing `'\n'` yields a trailing
empty line; and CRLF sequences are not normalized, as on `"a\r\nb"`. -/
theorem toLines_spec :
    (∀ t : List Char,
      List.intercalate ['\n'] (toLines t) = t ∧
      (∀ l ∈ toLines t, '\n' ∉ l) ∧
      1 ≤ (toLines t).length ∧
      toLines (t ++ ['\n']) = toLines t ++ [[]]) ∧
    toLines [] = [[]] ∧
    toLines "a\r\nb".data = [['a', '\r'], ['b']] := by
  refine ⟨fun t => ⟨toLines_intercalate t, toLines_no_newline t, ?_,
    toLines_append_newline t⟩, rfl, by decide⟩
  have h := toLines_ne_nil t
  cases hc : toLines t with
  | nil => exact absurd hc h
  | cons l ls => simp [hc]
